import Mathlib

/-
Verification of the encrypted-backup streaming pipeline.

Shallow embedding of the Rust sources:
  src/src/backup_crypto.rs   (section codec, read/write sections, chunked
                              encrypt/decrypt pipeline, sequential version)
  src/src/crypto.rs          (aes_encrypt / aes_decrypt wrappers)
  src/backup/src/pool.rs     (ordered worker pool, task_channel)
  src/src/backup.rs          (duplicate include-name validation, backup driver)

Bytes are modelled as Nat, files and streams as List Nat consumed from the
front.  A read of n bytes from a regular file yields min n remaining bytes.
The AES-256-GCM cipher of the external aes_gcm crate is modelled as an
abstract structure carrying the library contract (decryption inverts
encryption, ciphertext+tag is 16 bytes longer than the plaintext, and a
wrong key is rejected by tag verification).
-/

namespace EncryptedBackup

/-- LEN_SIZE from backup_crypto.rs: the length of the size portion of each
chunk of data. -/
def LEN_SIZE : Nat := 5

/-- The loop body of encode_section_size: iteration i writes byte
LEN_SIZE-1-i as size % 256 and then shifts size right by 8 bits, so the
last byte is written first. -/
def encodeLoop : Nat → Nat → List Nat
  | 0, _ => []
  | k + 1, size => encodeLoop k (size / 256) ++ [size % 256]

/-- encode_section_size from backup_crypto.rs: encodes the size portion of a
section of data as LEN_SIZE big-endian bytes.  The u8 conversion in the
source never fails since size % 256 < 256. -/
def encode_section_size (size : Nat) : List Nat :=
  encodeLoop LEN_SIZE size

/-- decode_section_size from backup_crypto.rs: folds size := size * 256 + val
over the encoded bytes. -/
def decode_section_size (encoded : List Nat) : Nat :=
  encoded.foldl (fun size val => size * 256 + val) 0

/-- The only I/O error kind constructed by the pipeline code. -/
inductive IoError
  | unexpectedEof

/-- read_section_sync from backup_crypto.rs.  The source reads into a
zero-initialised 5-byte buffer; a regular file returns min 5 remaining
bytes, so a short read leaves the buffer's trailing zeros in place.  It then
decodes the size, reads that many bytes and fails with UnexpectedEof when
fewer arrive.  Returns the section (or none at clean EOF) together with the
rest of the stream. -/
def read_section_sync (s : List Nat) : Except IoError (Option (List Nat) × List Nat) :=
  let n := min LEN_SIZE s.length
  if n = 0 then .ok (none, s)
  else
    let size_buffer := s.take LEN_SIZE ++ List.replicate (LEN_SIZE - n) 0
    let decoded_size := decode_section_size size_buffer
    let rest := s.drop LEN_SIZE
    let m := min decoded_size rest.length
    if m ≠ decoded_size then .error .unexpectedEof
    else .ok (some (rest.take decoded_size), rest.drop decoded_size)

/-- write_section_sync from backup_crypto.rs: the bytes appended to the
destination file, a 5-byte encoded length followed by the data. -/
def write_section_sync (data : List Nat) : List Nat :=
  encode_section_size data.length ++ data

/-- AES_NONCE_SIZE from crypto.rs. -/
def AES_NONCE_SIZE : Nat := 12

/-- Contract of the external aes_gcm crate's Aes256Gcm cipher, over an
abstract key type: encryption of a plaintext under a key and nonce yields
ciphertext plus a 16-byte tag, decryption inverts it, and tag verification
rejects a different key. -/
structure GCM (K : Type) where
  enc : K → List Nat → List Nat → List Nat
  dec : K → List Nat → List Nat → Option (List Nat)
  dec_enc : ∀ k n p, dec k n (enc k n p) = some p
  enc_length : ∀ k n p, (enc k n p).length = p.length + 16
  wrong_key : ∀ k k' n p, k ≠ k' → dec k' n (enc k n p) = none

/-- Outcome of a call that may panic, fail with aes_gcm::Error
(BackupError::CryptoError) or succeed. -/
inductive CryptoOut (α : Type)
  | panicked
  | cryptoError
  | ok (val : α)

/-- aes_encrypt from crypto.rs: prepends the freshly sampled 12-byte nonce to
the ciphertext.  The nonce is passed explicitly here (the source samples it
from the CSRNG); the cipher's encrypt call is modelled as total, since
aes_gcm only fails encryption beyond the GCM length bound. -/
def aes_encrypt {K : Type} (G : GCM K) (key : K) (nonce : List Nat)
    (plaintext : List Nat) : List Nat :=
  nonce ++ G.enc key nonce plaintext

/-- aes_decrypt from crypto.rs: split_at(AES_NONCE_SIZE) panics when the blob
is shorter than 12 bytes (so the try_into error branch of the source is
unreachable); otherwise the first 12 bytes are the nonce and the remainder
is handed to the cipher, whose failure becomes CryptoError. -/
def aes_decrypt {K : Type} (G : GCM K) (key : K) (blob : List Nat) :
    CryptoOut (List Nat) :=
  if blob.length < AES_NONCE_SIZE then .panicked
  else
    match G.dec key (blob.take AES_NONCE_SIZE) (blob.drop AES_NONCE_SIZE) with
    | some plaintext => .ok plaintext
    | none => .cryptoError

/-- encrypt_file_sync from backup_crypto.rs: repeatedly read up to chunk_size
bytes from src (a regular file returns min chunk_size remaining), stop at a
0-byte read, otherwise encrypt the chunk and append a framed section to the
destination.  idx numbers the chunks so that each gets its own nonce from
the supply. -/
def encrypt_file_sync {K : Type} (G : GCM K) (key : K) (nonces : Nat → List Nat)
    (chunk_size : Nat) (src : List Nat) (idx : Nat) : List Nat :=
  if min chunk_size src.length = 0 then []
  else
    write_section_sync (aes_encrypt G key (nonces idx) (src.take chunk_size)) ++
      encrypt_file_sync G key nonces chunk_size (src.drop chunk_size) (idx + 1)
termination_by src.length
decreasing_by simp; omega

/-- Outcome of the chunked decrypt pipeline. -/
inductive PipelineOut
  | panicked
  | ioError (e : IoError)
  | cryptoError
  | ok (bytes : List Nat)

/-- decrypt_file_sync from backup_crypto.rs: read framed sections until clean
EOF, decrypt each and append the plaintext to the destination (dest holds
the bytes written so far). -/
def decrypt_file_sync {K : Type} (G : GCM K) (key : K) (src : List Nat)
    (dest : List Nat) : PipelineOut :=
  match h : read_section_sync src with
  | .error e => .ioError e
  | .ok (none, _) => .ok dest
  | .ok (some data, rest) =>
    match aes_decrypt G key data with
    | .panicked => .panicked
    | .cryptoError => .cryptoError
    | .ok p => decrypt_file_sync G key rest (dest ++ p)
termination_by src.length
decreasing_by
  unfold read_section_sync at h
  dsimp only at h
  split at h
  · simp at h
  · next h0 =>
    split at h
    · simp at h
    · next h1 =>
      simp only [Except.ok.injEq, Prod.mk.injEq, Option.some.injEq] at h
      obtain ⟨-, h2⟩ := h
      have h3 : 1 ≤ src.length := by
        rcases Nat.eq_zero_or_pos src.length with hz | hp
        · exact absurd (by simp [hz]) h0
        · exact hp
      rw [← h2]
      simp only [List.length_drop, LEN_SIZE]
      omega

/-- A concrete cipher satisfying the GCM contract, used to instantiate the
pipeline theorems on executable inputs: the 16-byte tag is fifteen zero
bytes followed by the key (keys are Nat, so the tag determines the key). -/
def natGCM : GCM Nat where
  enc k _ p := p ++ (List.replicate 15 0 ++ [k])
  dec k _ c :=
    if 16 ≤ c.length ∧ c.drop (c.length - 16) = List.replicate 15 0 ++ [k]
    then some (c.take (c.length - 16)) else none
  dec_enc := by
    intro k n p
    dsimp only
    have hl : (p ++ (List.replicate 15 0 ++ [k])).length - 16 = p.length := by
      simp
    rw [if_pos]
    · rw [hl, List.take_left]
    · constructor
      · simp
      · rw [hl, List.drop_left]
  enc_length := by
    intro k n p
    simp
  wrong_key := by
    intro k k' n p hk
    dsimp only
    rw [if_neg]
    intro ⟨h1, h2⟩
    have hl : (p ++ (List.replicate 15 0 ++ [k])).length - 16 = p.length := by
      simp
    rw [hl, List.drop_left] at h2
    simp at h2
    exact hk h2

/-- A toy stand-in for password_to_key (SHA-256 is external to the
repository): any function from passwords to abstract keys; instantiated at
String.length for concrete witnesses. -/
def strKey (pw : String) : Nat := pw.length

/-- State of one worker thread of the pool in backup/src/pool.rs: blocked on
the rendezvous recv of its request channel, executing a task, or blocked on
the rendezvous send of its result. -/
inductive WState (τ ρ : Type)
  | idle
  | busy (t : τ)
  | done (r : ρ)

/-- Boolean discriminators for worker states. -/
def WState.isIdle {τ ρ : Type} : WState τ ρ → Bool
  | .idle => true
  | _ => false

def WState.isBusy {τ ρ : Type} : WState τ ρ → Bool
  | .busy _ => true
  | _ => false

def WState.isDone {τ ρ : Type} : WState τ ρ → Bool
  | .done _ => true
  | _ => false

/-- Instantaneous state of the task_channel system of backup/src/pool.rs.
toSubmit are the tasks the producer has not yet sent; reqQ is the buffer of
sync_channel(size) from sender to dispatcher; dispHold is the task the
dispatcher has received and is offering at the rendezvous of worker
dispIdx; workers are the N worker threads; collHold is the result the
collector has taken from worker collIdx's rendezvous and is waiting to push
into respQ, the sync_channel(size) buffer read by the receiver; received
are the results the receiver has obtained, in order. -/
structure PoolState (τ ρ : Type) where
  toSubmit : List τ
  reqQ : List τ
  dispHold : Option τ
  dispIdx : Nat
  workers : Nat → WState τ ρ
  collIdx : Nat
  collHold : Option ρ
  respQ : List ρ
  received : List ρ

/-- Initial state of task_channel with a producer about to submit ts. -/
def initState {τ ρ : Type} (ts : List τ) : PoolState τ ρ :=
  ⟨ts, [], none, 0, fun _ => .idle, 0, none, [], []⟩

/-- Interleaving semantics of the pool of backup/src/pool.rs.  N is the pool
size; run executes a task (tasks are opaque closures, so execution is a
function of the task alone).  Rendezvous channels (capacity 0) appear as
synchronising steps: handoff pairs the dispatcher's blocking send with an
idle worker's recv, and collect pairs a finished worker's blocking send
with the collector's recv at index collIdx.  Bounded channels of capacity N
(reqQ, respQ) accept a value only while they hold fewer than N. -/
inductive Step (N : Nat) {τ ρ : Type} (run : τ → ρ) :
    PoolState τ ρ → PoolState τ ρ → Prop
  | submit (s : PoolState τ ρ) (t : τ) (rest : List τ)
      (h1 : s.toSubmit = t :: rest) (h2 : s.reqQ.length < N) :
      Step N run s { s with toSubmit := rest, reqQ := s.reqQ ++ [t] }
  | dispatch (s : PoolState τ ρ) (t : τ) (q : List τ)
      (h1 : s.dispHold = none) (h2 : s.reqQ = t :: q) :
      Step N run s { s with reqQ := q, dispHold := some t }
  | handoff (s : PoolState τ ρ) (t : τ)
      (h1 : s.dispHold = some t) (h2 : s.workers s.dispIdx = .idle) :
      Step N run s { s with dispHold := none,
                            workers := Function.update s.workers s.dispIdx (.busy t),
                            dispIdx := (s.dispIdx + 1) % N }
  | work (s : PoolState τ ρ) (i : Nat) (t : τ)
      (hi : i < N) (h1 : s.workers i = .busy t) :
      Step N run s { s with workers := Function.update s.workers i (.done (run t)) }
  | collect (s : PoolState τ ρ) (r : ρ)
      (h1 : s.collHold = none) (h2 : s.workers s.collIdx = .done r) :
      Step N run s { s with workers := Function.update s.workers s.collIdx .idle,
                            collHold := some r,
                            collIdx := (s.collIdx + 1) % N }
  | deliver (s : PoolState τ ρ) (r : ρ)
      (h1 : s.collHold = some r) (h2 : s.respQ.length < N) :
      Step N run s { s with collHold := none, respQ := s.respQ ++ [r] }
  | receive (s : PoolState τ ρ) (r : ρ) (q : List ρ)
      (h1 : s.respQ = r :: q) :
      Step N run s { s with respQ := q, received := s.received ++ [r] }

/-- The list held by an Option. -/
def optList {α : Type} : Option α → List α
  | none => []
  | some a => [a]

/-- The result a worker state will eventually contribute. -/
def wcontent {τ ρ : Type} (run : τ → ρ) : WState τ ρ → Option ρ
  | .idle => none
  | .busy t => some (run t)
  | .done r => some r

/-- The results currently inside the worker ring w, in collection order:
entry j comes from worker (c + j) mod N where c is the collector index. -/
def window {τ ρ : Type} (run : τ → ρ) (N : Nat) (w : Nat → WState τ ρ)
    (c : Nat) (m : Nat) : List ρ :=
  (List.range m).filterMap (fun j => wcontent run (w ((c + j) % N)))

/-- True when some thread of the pool can take a step: this is the exact
enabledness condition of the Step relation. -/
def enabledB (N : Nat) {τ ρ : Type} (s : PoolState τ ρ) : Bool :=
  (!s.toSubmit.isEmpty && decide (s.reqQ.length < N))
    || (s.dispHold.isNone && !s.reqQ.isEmpty)
    || (s.dispHold.isSome && (s.workers s.dispIdx).isIdle)
    || (List.range N).any (fun i => (s.workers i).isBusy)
    || (s.collHold.isNone && (s.workers s.collIdx).isDone)
    || (s.collHold.isSome && decide (s.respQ.length < N))
    || !s.respQ.isEmpty

/-- Tasks submitted but not yet delivered to the receiver: contents of the
request buffer, the dispatcher's hand, the worker ring, the collector's
hand and the response buffer. -/
def inflight (N : Nat) {τ ρ : Type} (s : PoolState τ ρ) : Nat :=
  s.reqQ.length + (optList s.dispHold).length +
    ((List.range N).filter (fun i => !(s.workers i).isIdle)).length +
    (optList s.collHold).length + s.respQ.length

/-- The pool invariant: both indices are in range, both bounded buffers
respect their capacity, the worker ring holds a contiguous block of m
results starting at collIdx with the dispatcher m positions ahead, and
flattening every stage in pipeline order recovers the submitted tasks'
results in submission order. -/
def Inv (N : Nat) {τ ρ : Type} (run : τ → ρ) (ts : List τ) (s : PoolState τ ρ) : Prop :=
  ∃ m, m ≤ N ∧
    s.dispIdx < N ∧ s.collIdx < N ∧
    s.reqQ.length ≤ N ∧ s.respQ.length ≤ N ∧
    s.dispIdx = (s.collIdx + m) % N ∧
    (∀ j, j < m → wcontent run (s.workers ((s.collIdx + j) % N)) ≠ none) ∧
    (∀ j, m ≤ j → j < N → s.workers ((s.collIdx + j) % N) = .idle) ∧
    s.received ++ s.respQ ++ optList s.collHold ++
      window run N s.workers s.collIdx m ++
      (optList s.dispHold ++ s.reqQ ++ s.toSubmit).map run = ts.map run

/-- The possible outcomes of validate_no_duplicate_include_names in
backup.rs: success, a panic (the unwrap of last_path_component on a path
with no components), or the DuplicateIncludeName error. -/
inductive VOut
  | ok
  | panicked
  | dup (name : String)

/-- last_path_component from backup.rs: the last component of a path, here
modelled as a list of components; None when the path has none. -/
def last_path_component (path : List String) : Option String :=
  path.getLast?

/-- The loop of validate_no_duplicate_include_names from backup.rs: walk the
include paths, take the last component of each (unwrap panics if there is
none), fail on the first name already seen, otherwise record it.  The
HashSet is modelled as the list of names seen so far. -/
def validateLoop : List (List String) → List String → VOut
  | [], _ => .ok
  | p :: rest, seen =>
    match last_path_component p with
    | none => .panicked
    | some name =>
      if name ∈ seen then .dup name else validateLoop rest (name :: seen)

/-- validate_no_duplicate_include_names from backup.rs. -/
def validate_no_duplicate_include_names (paths : List (List String)) : VOut :=
  validateLoop paths []

/-- Outcome of the backup driver. -/
inductive BackupOut
  | panicked
  | duplicateIncludeName (name : String)
  | pathAlreadyExists
  | completed

/-- The front of backup() from backup.rs, up to its first filesystem write:
validate include names, then check the output path, and only then create
the temporary tar file.  Everything after the validations (archiving,
encryption, temp-file deletion) is abstracted as rest, a final outcome
paired with the filesystem actions it performs; the returned action list
records every filesystem output of the call. -/
def backup (paths : List (List String)) (outExists : Bool)
    (rest : BackupOut × List String) : BackupOut × List String :=
  match validate_no_duplicate_include_names paths with
  | .panicked => (.panicked, [])
  | .dup name => (.duplicateIncludeName name, [])
  | .ok =>
    if outExists then (.pathAlreadyExists, [])
    else (rest.1, "create_temp_file" :: rest.2)

theorem decode_section_size_append (l : List Nat) (v : Nat) :
    decode_section_size (l ++ [v]) = decode_section_size l * 256 + v := by
  simp [decode_section_size, List.foldl_append]

theorem encodeLoop_length (k s : Nat) : (encodeLoop k s).length = k := by
  induction k generalizing s with
  | zero => rfl
  | succ k ih => simp [encodeLoop, ih]

theorem decode_encodeLoop (k s : Nat) :
    decode_section_size (encodeLoop k s) = s % 256 ^ k := by
  induction k generalizing s with
  | zero => simp [encodeLoop, decode_section_size, Nat.mod_one]
  | succ k ih =>
    rw [encodeLoop, decode_section_size_append, ih]
    have h1 : (256:Nat) ^ (k + 1) = 256 * 256 ^ k := by
      rw [pow_succ, Nat.mul_comm]
    rw [h1, Nat.mod_mul]
    ring

theorem encodeLoop_mod (k s : Nat) : encodeLoop k (s % 256 ^ k) = encodeLoop k s := by
  induction k generalizing s with
  | zero => rfl
  | succ k ih =>
    have h1 : (256:Nat) ^ (k + 1) = 256 * 256 ^ k := by
      rw [pow_succ, Nat.mul_comm]
    rw [encodeLoop, encodeLoop, h1, Nat.mod_mul_right_div_self, ih,
      Nat.mod_mod_of_dvd s (Dvd.intro (256 ^ k) rfl)]

theorem encode_section_size_length (n : Nat) :
    (encode_section_size n).length = LEN_SIZE :=
  encodeLoop_length LEN_SIZE n

theorem decode_encode_mod (n : Nat) :
    decode_section_size (encode_section_size n) = n % 2 ^ 40 := by
  rw [encode_section_size, decode_encodeLoop]
  norm_num [LEN_SIZE]

theorem decode_encode_of_lt {n : Nat} (h : n < 2 ^ 40) :
    decode_section_size (encode_section_size n) = n := by
  rw [decode_encode_mod, Nat.mod_eq_of_lt h]

/-- C7: for every natural number n below 2^40, decoding the 5-byte
big-endian encoding of n produced by encode_section_size returns n. -/
theorem section_size_codec_roundtrip (n : Nat) (h : n < 2 ^ 40) :
    decode_section_size (encode_section_size n) = n :=
  decode_encode_of_lt h

/-- Witness for C7 at the concrete input 4328719365 from the repository's
own test suite. -/
theorem section_size_codec_roundtrip_witness :
    decode_section_size (encode_section_size 4328719365) = 4328719365 :=
  section_size_codec_roundtrip 4328719365 (by norm_num)

/-- C10: encode_section_size is total (it always produces exactly LEN_SIZE
bytes), it encodes only the low 40 bits of its argument, and decoding its
output returns n mod 2^40 for every n. -/
theorem encode_section_size_truncates (n : Nat) :
    (encode_section_size n).length = LEN_SIZE ∧
    encode_section_size n = encode_section_size (n % 2 ^ 40) ∧
    decode_section_size (encode_section_size n) = n % 2 ^ 40 := by
  refine ⟨encode_section_size_length n, ?_, decode_encode_mod n⟩
  rw [encode_section_size, encode_section_size]
  have h : (2:Nat) ^ 40 = 256 ^ LEN_SIZE := by norm_num [LEN_SIZE]
  rw [h, encodeLoop_mod]

theorem decode_foldl_eq_zero (l : List Nat) (acc : Nat) :
    List.foldl (fun size val => size * 256 + val) acc l = 0 ↔
      acc = 0 ∧ ∀ b ∈ l, b = 0 := by
  induction l generalizing acc with
  | nil => simp
  | cons x xs ih =>
    simp only [List.foldl_cons, ih, List.mem_cons]
    constructor
    · intro ⟨h1, h2⟩
      have hx : acc = 0 ∧ x = 0 := by omega
      exact ⟨hx.1, fun b hb => hb.elim (fun e => e ▸ hx.2) (h2 b)⟩
    · intro ⟨h1, h2⟩
      have hx : x = 0 := h2 x (Or.inl rfl)
      exact ⟨by omega, fun b hb => h2 b (Or.inr hb)⟩

theorem decode_section_size_eq_zero (l : List Nat) :
    decode_section_size l = 0 ↔ ∀ b ∈ l, b = 0 := by
  rw [decode_section_size, decode_foldl_eq_zero]
  simp

/-- C4 counterexample: a stream holding a single partial-prefix byte 0 makes
read_section_sync return an empty decoded section rather than failing with
UnexpectedEof: the zero-initialised buffer pads the partial prefix with
zeros, the padded prefix decodes to length 0, and the zero-length payload
read trivially succeeds. -/
theorem read_section_sync_partial_zero :
    read_section_sync [0] = .ok (some [], []) := rfl

/-- C4 amended: when the stream ends with a partial length prefix of 1 to 4
bytes at least one of which is nonzero, read_section_sync fails with
UnexpectedEof. -/
theorem read_section_sync_partial_nonzero (s : List Nat)
    (h1 : 1 ≤ s.length) (h2 : s.length ≤ 4) (h3 : ∃ b ∈ s, b ≠ 0) :
    read_section_sync s = .error .unexpectedEof := by
  have hmin : min LEN_SIZE s.length = s.length := by
    simp [LEN_SIZE]; omega
  have htake : s.take LEN_SIZE = s :=
    List.take_of_length_le (by simp [LEN_SIZE]; omega)
  have hdropn : s.drop LEN_SIZE = [] :=
    List.drop_eq_nil_of_le (by simp [LEN_SIZE]; omega)
  have hdec : decode_section_size (s.take LEN_SIZE ++
      List.replicate (LEN_SIZE - min LEN_SIZE s.length) 0) ≠ 0 := by
    intro h0
    rw [decode_section_size_eq_zero] at h0
    obtain ⟨b, hb, hbne⟩ := h3
    exact hbne (h0 b (by rw [htake]; exact List.mem_append_left _ hb))
  unfold read_section_sync
  dsimp only
  rw [if_neg (by rw [hmin]; omega), if_pos]
  rw [hdropn]
  simpa using Ne.symm hdec

/-- Witness for the amended C4 at the 1-byte stream holding the nonzero
byte 1. -/
theorem read_section_sync_partial_nonzero_witness :
    read_section_sync [1] = .error .unexpectedEof :=
  read_section_sync_partial_nonzero [1] (by decide) (by decide) (by decide)

theorem read_section_sync_exact (p rest : List Nat) (h : p.length < 2 ^ 40) :
    read_section_sync (encode_section_size p.length ++ (p ++ rest)) =
      .ok (some p, rest) := by
  have henc : (encode_section_size p.length).length = LEN_SIZE :=
    encode_section_size_length _
  have hlen : (encode_section_size p.length ++ (p ++ rest)).length =
      LEN_SIZE + (p.length + rest.length) := by
    simp [henc]
  have htake : (encode_section_size p.length ++ (p ++ rest)).take LEN_SIZE =
      encode_section_size p.length := by
    rw [← henc]; exact List.take_left _ _
  have hdrop : (encode_section_size p.length ++ (p ++ rest)).drop LEN_SIZE =
      p ++ rest := by
    rw [← henc]; exact List.drop_left _ _
  have hmin : min LEN_SIZE (encode_section_size p.length ++ (p ++ rest)).length =
      LEN_SIZE := by
    rw [hlen]; omega
  unfold read_section_sync
  dsimp only
  rw [hmin, if_neg (by simp [LEN_SIZE]), htake, hdrop]
  simp only [Nat.sub_self, List.replicate_zero, List.append_nil,
    decode_encode_of_lt h]
  rw [if_neg]
  · rw [List.take_left, List.drop_left]
  · simp

theorem encrypt_file_sync_stop {K : Type} (G : GCM K) (key : K)
    (nonces : Nat → List Nat) (c : Nat) (src : List Nat) (idx : Nat)
    (h : min c src.length = 0) :
    encrypt_file_sync G key nonces c src idx = [] := by
  rw [encrypt_file_sync, if_pos h]

theorem encrypt_file_sync_cons {K : Type} (G : GCM K) (key : K)
    (nonces : Nat → List Nat) (c : Nat) (src : List Nat) (idx : Nat)
    (h : min c src.length ≠ 0) :
    encrypt_file_sync G key nonces c src idx =
      write_section_sync (aes_encrypt G key (nonces idx) (src.take c)) ++
        encrypt_file_sync G key nonces c (src.drop c) (idx + 1) := by
  conv_lhs => rw [encrypt_file_sync]
  rw [if_neg h]

theorem decrypt_file_sync_nil {K : Type} (G : GCM K) (key : K) (dest : List Nat) :
    decrypt_file_sync G key [] dest = .ok dest := by
  have hnil : read_section_sync ([] : List Nat) = .ok (none, []) := rfl
  rw [decrypt_file_sync]
  split
  · next heq => rw [hnil] at heq; cases heq
  · rfl
  · next heq => rw [hnil] at heq; cases heq

theorem decrypt_file_sync_step {K : Type} (G : GCM K) (key : K)
    {src dest data rest p : List Nat}
    (hread : read_section_sync src = .ok (some data, rest))
    (hdec : aes_decrypt G key data = .ok p) :
    decrypt_file_sync G key src dest = decrypt_file_sync G key rest (dest ++ p) := by
  rw [decrypt_file_sync]
  split
  · next heq => rw [hread] at heq; cases heq
  · next heq => rw [hread] at heq; cases heq
  · next data' rest' heq =>
    rw [hread] at heq
    injection heq with heq
    injection heq with heq1 heq2
    injection heq1 with heq1
    subst heq1; subst heq2
    rw [hdec]

theorem decrypt_file_sync_crypto {K : Type} (G : GCM K) (key : K)
    {src dest data rest : List Nat}
    (hread : read_section_sync src = .ok (some data, rest))
    (hdec : aes_decrypt G key data = .cryptoError) :
    decrypt_file_sync G key src dest = .cryptoError := by
  rw [decrypt_file_sync]
  split
  · next heq => rw [hread] at heq; cases heq
  · next heq => rw [hread] at heq; cases heq
  · next data' rest' heq =>
    rw [hread] at heq
    injection heq with heq
    injection heq with heq1 heq2
    injection heq1 with heq1
    subst heq1; subst heq2
    rw [hdec]

theorem aes_encrypt_length {K : Type} (G : GCM K) (key : K) {nonce : List Nat}
    (hn : nonce.length = AES_NONCE_SIZE) (p : List Nat) :
    (aes_encrypt G key nonce p).length = p.length + 28 := by
  simp [aes_encrypt, hn, G.enc_length, AES_NONCE_SIZE]
  omega

theorem aes_decrypt_encrypt {K : Type} (G : GCM K) (key : K) {nonce : List Nat}
    (hn : nonce.length = AES_NONCE_SIZE) (p : List Nat) :
    aes_decrypt G key (aes_encrypt G key nonce p) = .ok p := by
  unfold aes_decrypt aes_encrypt
  have htake : (nonce ++ G.enc key nonce p).take AES_NONCE_SIZE = nonce := by
    rw [← hn]; exact List.take_left _ _
  have hdrop : (nonce ++ G.enc key nonce p).drop AES_NONCE_SIZE =
      G.enc key nonce p := by
    rw [← hn]; exact List.drop_left _ _
  rw [if_neg (by simp [hn]), htake, hdrop, G.dec_enc]

theorem aes_decrypt_wrong_key {K : Type} (G : GCM K) {key key' : K}
    (hk : key ≠ key') {nonce : List Nat} (hn : nonce.length = AES_NONCE_SIZE)
    (p : List Nat) :
    aes_decrypt G key' (aes_encrypt G key nonce p) = .cryptoError := by
  unfold aes_decrypt aes_encrypt
  have htake : (nonce ++ G.enc key nonce p).take AES_NONCE_SIZE = nonce := by
    rw [← hn]; exact List.take_left _ _
  have hdrop : (nonce ++ G.enc key nonce p).drop AES_NONCE_SIZE =
      G.enc key nonce p := by
    rw [← hn]; exact List.drop_left _ _
  rw [if_neg (by simp [hn]), htake, hdrop, G.wrong_key _ _ _ _ hk]

theorem decrypt_encrypt_aux {K : Type} (G : GCM K) (key : K)
    (nonces : Nat → List Nat) (hn : ∀ i, (nonces i).length = AES_NONCE_SIZE)
    (c : Nat) (hc1 : 1 ≤ c) (hc2 : c ≤ 2 ^ 20)
    (src : List Nat) (idx : Nat) (dest : List Nat) :
    decrypt_file_sync G key (encrypt_file_sync G key nonces c src idx) dest =
      .ok (dest ++ src) := by
  by_cases h : min c src.length = 0
  · have hsrc : src = [] := by
      rcases Nat.min_eq_zero_iff.mp h with hc | hl
      · omega
      · exact List.length_eq_zero.mp hl
    subst hsrc
    rw [encrypt_file_sync_stop G key nonces c [] idx h, decrypt_file_sync_nil]
    simp
  · have hplen : (aes_encrypt G key (nonces idx) (src.take c)).length =
        (src.take c).length + 28 := aes_encrypt_length G key (hn idx) _
    have hlt : (aes_encrypt G key (nonces idx) (src.take c)).length < 2 ^ 40 := by
      rw [hplen]
      have : (src.take c).length ≤ c := by simp
      omega
    rw [encrypt_file_sync_cons G key nonces c src idx h, write_section_sync,
      List.append_assoc]
    rw [decrypt_file_sync_step G key (read_section_sync_exact _ _ hlt)
      (aes_decrypt_encrypt G key (hn idx) _)]
    rw [decrypt_encrypt_aux G key nonces hn c hc1 hc2 (src.drop c) (idx + 1)
      (dest ++ src.take c)]
    rw [List.append_assoc, List.take_append_drop]
termination_by src.length
decreasing_by simp; omega

/-- C1: decrypting the file produced by the chunked encrypt pipeline with the
same password's key yields exactly the plaintext, for any chunk size in
[1024, 2^20], any password-to-key map, and any 12-byte nonce supply. -/
theorem pipeline_roundtrip {K : Type} (G : GCM K) (ptk : String → K)
    (pw : String) (nonces : Nat → List Nat)
    (hn : ∀ i, (nonces i).length = AES_NONCE_SIZE)
    (c : Nat) (hc1 : 1024 ≤ c) (hc2 : c ≤ 2 ^ 20) (P : List Nat) :
    decrypt_file_sync G (ptk pw) (encrypt_file_sync G (ptk pw) nonces c P 0) [] =
      .ok P := by
  rw [decrypt_encrypt_aux G (ptk pw) nonces hn c (by omega) hc2 P 0 []]
  rfl

/-- Witness for C1 on a concrete cipher, password, nonce supply, chunk size
1024 and a 3-byte plaintext. -/
theorem pipeline_roundtrip_witness :
    decrypt_file_sync natGCM (strKey "pw")
      (encrypt_file_sync natGCM (strKey "pw") (fun _ => List.replicate 12 0) 1024
        [7, 8, 9] 0) [] = .ok [7, 8, 9] :=
  pipeline_roundtrip natGCM strKey "pw" (fun _ => List.replicate 12 0)
    (fun _ => by simp [AES_NONCE_SIZE]) 1024 (by norm_num) (by norm_num) [7, 8, 9]

/-- C8: encrypting a 0-byte input writes no sections, producing a 0-byte
output file, and decrypting a 0-byte file succeeds with a 0-byte output. -/
theorem zero_byte_roundtrip {K : Type} (G : GCM K) (key : K)
    (nonces : Nat → List Nat) (c : Nat) :
    encrypt_file_sync G key nonces c [] 0 = [] ∧
      decrypt_file_sync G key [] [] = .ok [] :=
  ⟨encrypt_file_sync_stop G key nonces c [] 0 (by simp),
    decrypt_file_sync_nil G key []⟩

/-- C3: the code panics instead of returning CryptoError on a blob shorter
than 12 bytes: split_at(AES_NONCE_SIZE) in aes_decrypt panics when the blob
has fewer than 12 bytes, so the CryptoError path for malformed nonces is
unreachable.  Evaluated here at a 3-byte blob under the concrete cipher. -/
theorem aes_decrypt_short_blob_panics :
    aes_decrypt natGCM 0 [1, 2, 3] = .panicked := rfl

/-- C6 counterexample: with distinct passwords (here distinct keys 1 and 2
under the length key map), decrypting the encryption of the empty plaintext
succeeds with empty output instead of failing with CryptoError, because a
0-byte input produces a 0-byte encrypted file which decrypts cleanly under
any key. -/
theorem wrong_password_empty_succeeds :
    strKey "a" ≠ strKey "bb" ∧
      decrypt_file_sync natGCM (strKey "bb")
        (encrypt_file_sync natGCM (strKey "a") (fun _ => List.replicate 12 0) 1024
          [] 0) [] = .ok [] :=
  ⟨by decide,
    by
      rw [encrypt_file_sync_stop natGCM (strKey "a") _ 1024 [] 0 (by simp),
        decrypt_file_sync_nil]⟩

/-- C6 amended: for every nonempty plaintext, decrypting a file encrypted
under one key with a different key fails with CryptoError on the first
section (chunk size at least 1 and at most 2^20, 12-byte nonces). -/
theorem wrong_password_fails {K : Type} (G : GCM K) (ptk : String → K)
    (pw pw' : String) (hk : ptk pw ≠ ptk pw')
    (nonces : Nat → List Nat) (hn : ∀ i, (nonces i).length = AES_NONCE_SIZE)
    (c : Nat) (hc1 : 1 ≤ c) (hc2 : c ≤ 2 ^ 20)
    (P : List Nat) (hP : P ≠ []) :
    decrypt_file_sync G (ptk pw') (encrypt_file_sync G (ptk pw) nonces c P 0) [] =
      .cryptoError := by
  have h : min c P.length ≠ 0 := by
    have : P.length ≠ 0 := fun h0 => hP (List.length_eq_zero.mp h0)
    omega
  have hplen : (aes_encrypt G (ptk pw) (nonces 0) (P.take c)).length =
      (P.take c).length + 28 := aes_encrypt_length G _ (hn 0) _
  have hlt : (aes_encrypt G (ptk pw) (nonces 0) (P.take c)).length < 2 ^ 40 := by
    rw [hplen]
    have : (P.take c).length ≤ c := by simp
    omega
  rw [encrypt_file_sync_cons G (ptk pw) nonces c P 0 h, write_section_sync,
    List.append_assoc]
  exact decrypt_file_sync_crypto G (ptk pw')
    (read_section_sync_exact _ _ hlt) (aes_decrypt_wrong_key G hk (hn 0) _)

/-- Witness for the amended C6 on the concrete cipher with distinct keys. -/
theorem wrong_password_fails_witness :
    decrypt_file_sync natGCM (strKey "bb")
      (encrypt_file_sync natGCM (strKey "a") (fun _ => List.replicate 12 0) 1024
        [5] 0) [] = .cryptoError :=
  wrong_password_fails natGCM strKey "a" "bb" (by decide)
    (fun _ => List.replicate 12 0) (fun _ => by simp [AES_NONCE_SIZE])
    1024 (by norm_num) (by norm_num) [5] (by simp)

theorem add_mod_cancel {N c x y : Nat} (hx : x < N) (hy : y < N)
    (h : (c + x) % N = (c + y) % N) : x = y := by
  have h1 : x % N = y % N := Nat.ModEq.add_left_cancel' c h
  rwa [Nat.mod_eq_of_lt hx, Nat.mod_eq_of_lt hy] at h1

theorem residue_hit {N c x : Nat} (hc : c < N) (hx : x < N) :
    (c + (N + x - c) % N) % N = x := by
  rw [Nat.add_mod_mod]
  have h2 : c + (N + x - c) = N + x := by omega
  rw [h2, Nat.add_comm N x, Nat.add_mod_right]
  exact Nat.mod_eq_of_lt hx

theorem window_congr {τ ρ : Type} (run : τ → ρ) (N : Nat)
    (w w' : Nat → WState τ ρ) (c m : Nat)
    (h : ∀ j, j < m → wcontent run (w' ((c + j) % N)) =
      wcontent run (w ((c + j) % N))) :
    window run N w' c m = window run N w c m := by
  unfold window
  exact List.filterMap_congr (fun j hj => h j (List.mem_range.mp hj))

theorem window_succ {τ ρ : Type} (run : τ → ρ) (N : Nat)
    (w : Nat → WState τ ρ) (c m : Nat) :
    window run N w c (m + 1) = window run N w c m ++
      optList (wcontent run (w ((c + m) % N))) := by
  unfold window
  rw [List.range_succ, List.filterMap_append]
  cases hw : wcontent run (w ((c + m) % N)) <;>
    simp [optList, hw]

theorem window_head {τ ρ : Type} (run : τ → ρ) (N : Nat)
    (w : Nat → WState τ ρ) (c k : Nat) :
    window run N w c (k + 1) =
      optList (wcontent run (w ((c + 0) % N))) ++
        (List.range k).filterMap
          (fun j => wcontent run (w ((c + (j + 1)) % N))) := by
  unfold window
  rw [List.range_succ_eq_map, List.filterMap_cons, List.filterMap_map]
  cases hw : wcontent run (w ((c + 0) % N)) <;>
    simp [optList, Function.comp_def]

theorem inv_init {τ ρ : Type} (run : τ → ρ) (N : Nat) (hN : 1 ≤ N)
    (ts : List τ) : Inv N run ts (initState ts) := by
  refine ⟨0, by omega, by simpa [initState] using hN, by simpa [initState] using hN,
    by simp [initState], by simp [initState], by simp [initState], ?_, ?_, ?_⟩
  · intro j hj; omega
  · intro j h1 h2; simp [initState]
  · simp [initState, window, optList]

theorem inv_step {τ ρ : Type} {N : Nat} {run : τ → ρ} {ts : List τ}
    {s s' : PoolState τ ρ} (hN : 1 ≤ N) (hstep : Step N run s s')
    (hinv : Inv N run ts s) : Inv N run ts s' := by
  obtain ⟨m, hm, hdN, hcN, hrq, hrs, hdi, hocc, hidle, hflat⟩ := hinv
  cases hstep with
  | submit t rest h1 h2 =>
    refine ⟨m, hm, hdN, hcN, by simp; omega, hrs, hdi, hocc, hidle, ?_⟩
    dsimp only
    rw [h1] at hflat
    simpa [List.append_assoc] using hflat
  | dispatch t q h1 h2 =>
    refine ⟨m, hm, hdN, hcN, ?_, hrs, hdi, hocc, hidle, ?_⟩
    · rw [h2] at hrq
      simp at hrq ⊢
      omega
    · dsimp only
      rw [h1, h2] at hflat
      simpa [optList, List.append_assoc] using hflat
  | handoff t h1 h2 =>
    have hmN : m < N := by
      rcases Nat.lt_or_ge m N with h | h
      · exact h
      · exfalso
        have hmeq : m = N := le_antisymm hm h
        subst hmeq
        have hidx : s.dispIdx = s.collIdx := by
          rw [hdi, Nat.add_mod_right]
          exact Nat.mod_eq_of_lt hcN
        have h0 := hocc 0 (by omega)
        rw [Nat.add_zero, Nat.mod_eq_of_lt hcN, ← hidx, h2] at h0
        exact h0 rfl
    have hdieq : (s.collIdx + m) % N = s.dispIdx := hdi.symm
    refine ⟨m + 1, by omega, Nat.mod_lt _ (by omega), hcN, hrq, hrs, ?_, ?_, ?_, ?_⟩
    · dsimp only
      rw [hdi, Nat.mod_add_mod, Nat.add_assoc]
    · intro j hj
      dsimp only
      rcases Nat.lt_or_ge j m with hjm | hjm
      · have hne : (s.collIdx + j) % N ≠ s.dispIdx := by
          rw [hdi]
          intro he
          have := add_mod_cancel (by omega) (by omega) he
          omega
        rw [Function.update_noteq hne]
        exact hocc j hjm
      · have hje : j = m := by omega
        subst hje
        rw [hdieq, Function.update_same]
        simp [wcontent]
    · intro j hj1 hj2
      dsimp only
      have hne : (s.collIdx + j) % N ≠ s.dispIdx := by
        rw [hdi]
        intro he
        have := add_mod_cancel (by omega) (by omega) he
        omega
      rw [Function.update_noteq hne]
      exact hidle j (by omega) hj2
    · dsimp only
      rw [window_succ]
      have hw : window run N (Function.update s.workers s.dispIdx (.busy t))
          s.collIdx m = window run N s.workers s.collIdx m := by
        apply window_congr
        intro j hj
        have hne : (s.collIdx + j) % N ≠ s.dispIdx := by
          rw [hdi]
          intro he
          have := add_mod_cancel (by omega) (by omega) he
          omega
        rw [Function.update_noteq hne]
      rw [hw, hdieq, Function.update_same]
      rw [h1] at hflat
      simpa [optList, wcontent, List.append_assoc] using hflat
  | work i t hi h1 =>
    have hpoint : ∀ x, wcontent run (Function.update s.workers i (.done (run t)) x) =
        wcontent run (s.workers x) := by
      intro x
      by_cases hx : x = i
      · subst hx
        rw [Function.update_same, h1]
        rfl
      · rw [Function.update_noteq hx]
    refine ⟨m, hm, hdN, hcN, hrq, hrs, hdi, ?_, ?_, ?_⟩
    · intro j hj
      dsimp only
      rw [hpoint]
      exact hocc j hj
    · intro j hj1 hj2
      dsimp only
      have hne : (s.collIdx + j) % N ≠ i := by
        intro he
        have hid := hidle j hj1 hj2
        rw [he, h1] at hid
        cases hid
      rw [Function.update_noteq hne]
      exact hidle j hj1 hj2
    · dsimp only
      rw [window_congr run N s.workers _ _ _ (fun j hj => hpoint _)]
      exact hflat
  | collect r h1 h2 =>
    have hm1 : 1 ≤ m := by
      by_contra h0
      have := hidle 0 (by omega) (by omega)
      rw [Nat.add_zero, Nat.mod_eq_of_lt hcN, h2] at this
      cases this
    obtain ⟨k, hk⟩ : ∃ k, m = k + 1 := ⟨m - 1, by omega⟩
    subst hk
    refine ⟨k, by omega, hdN, Nat.mod_lt _ (by omega), hrq, hrs, ?_, ?_, ?_, ?_⟩
    · dsimp only
      rw [hdi, Nat.mod_add_mod]
      congr 1
      omega
    · intro j hj
      dsimp only
      rw [Nat.mod_add_mod]
      have harr : s.collIdx + 1 + j = s.collIdx + (j + 1) := by omega
      rw [harr]
      have hne : (s.collIdx + (j + 1)) % N ≠ s.collIdx := by
        intro he
        have he2 : (s.collIdx + (j + 1)) % N = (s.collIdx + 0) % N := by
          rw [he, Nat.add_zero, Nat.mod_eq_of_lt hcN]
        have := add_mod_cancel (by omega) (by omega) he2
        omega
      rw [Function.update_noteq hne]
      exact hocc (j + 1) (by omega)
    · intro j hj1 hj2
      dsimp only
      rw [Nat.mod_add_mod]
      by_cases hj3 : j + 1 < N
      · have harr : s.collIdx + 1 + j = s.collIdx + (j + 1) := by omega
        rw [harr]
        by_cases he : (s.collIdx + (j + 1)) % N = s.collIdx
        · rw [he, Function.update_same]
        · rw [Function.update_noteq he]
          exact hidle (j + 1) (by omega) hj3
      · have hj4 : j + 1 = N := by omega
        have he : (s.collIdx + 1 + j) % N = s.collIdx := by
          have harr : s.collIdx + 1 + j = s.collIdx + N := by omega
          rw [harr, Nat.add_mod_right]
          exact Nat.mod_eq_of_lt hcN
        rw [he, Function.update_same]
    · dsimp only
      have hhead := window_head run N s.workers s.collIdx k
      have hidx0 : (s.collIdx + 0) % N = s.collIdx := by
        rw [Nat.add_zero]
        exact Nat.mod_eq_of_lt hcN
      rw [hidx0, h2] at hhead
      have hw2 : window run N (Function.update s.workers s.collIdx .idle)
          ((s.collIdx + 1) % N) k = (List.range k).filterMap
          (fun j => wcontent run (s.workers ((s.collIdx + (j + 1)) % N))) := by
        unfold window
        apply List.filterMap_congr
        intro j hj
        have hj' := List.mem_range.mp hj
        rw [Nat.mod_add_mod]
        have harr : s.collIdx + 1 + j = s.collIdx + (j + 1) := by omega
        rw [harr]
        have hne : (s.collIdx + (j + 1)) % N ≠ s.collIdx := by
          intro he
          have he2 : (s.collIdx + (j + 1)) % N = (s.collIdx + 0) % N := by
            rw [he, Nat.add_zero, Nat.mod_eq_of_lt hcN]
          have := add_mod_cancel (by omega) (by omega) he2
          omega
        rw [Function.update_noteq hne]
      rw [hw2]
      rw [h1, hhead] at hflat
      simpa [optList, wcontent, List.append_assoc] using hflat
  | deliver r h1 h2 =>
    refine ⟨m, hm, hdN, hcN, hrq, by simp; omega, hdi, hocc, hidle, ?_⟩
    dsimp only
    rw [h1] at hflat
    simpa [optList, List.append_assoc] using hflat
  | receive r q h1 =>
    refine ⟨m, hm, hdN, hcN, hrq, ?_, hdi, hocc, hidle, ?_⟩
    · rw [h1] at hrs
      simp at hrs ⊢
      omega
    · dsimp only
      rw [h1] at hflat
      simpa [List.append_assoc] using hflat

theorem inv_reachable {τ ρ : Type} {N : Nat} {run : τ → ρ} {ts : List τ}
    {s : PoolState τ ρ} (hN : 1 ≤ N)
    (hr : Relation.ReflTransGen (Step N run) (initState ts) s) :
    Inv N run ts s := by
  induction hr with
  | refl => exact inv_init run N hN ts
  | tail hr hstep ih => exact inv_step hN hstep ih

theorem stuck_drained {τ ρ : Type} {N : Nat} {run : τ → ρ} {ts : List τ}
    {s : PoolState τ ρ} (hN : 1 ≤ N) (hinv : Inv N run ts s)
    (hstuck : enabledB N s = false) : s.received = ts.map run := by
  obtain ⟨m, hm, hdN, hcN, hrq, hrs, hdi, hocc, hidle, hflat⟩ := hinv
  unfold enabledB at hstuck
  rw [Bool.or_eq_false_iff] at hstuck
  obtain ⟨hstuck, hs7⟩ := hstuck
  rw [Bool.or_eq_false_iff] at hstuck
  obtain ⟨hstuck, hs6⟩ := hstuck
  rw [Bool.or_eq_false_iff] at hstuck
  obtain ⟨hstuck, hs5⟩ := hstuck
  rw [Bool.or_eq_false_iff] at hstuck
  obtain ⟨hstuck, hs4⟩ := hstuck
  rw [Bool.or_eq_false_iff] at hstuck
  obtain ⟨hstuck, hs3⟩ := hstuck
  rw [Bool.or_eq_false_iff] at hstuck
  obtain ⟨hs1, hs2⟩ := hstuck
  have hresp : s.respQ = [] := by
    cases hq : s.respQ with
    | nil => rfl
    | cons r q => rw [hq] at hs7; simp at hs7
  have hch : s.collHold = none := by
    cases hc : s.collHold with
    | none => rfl
    | some r =>
      rw [hc, hresp] at hs6
      simp at hs6
      omega
  have hm0 : m = 0 := by
    by_contra hm'
    have h0 := hocc 0 (by omega)
    rw [Nat.add_zero, Nat.mod_eq_of_lt hcN] at h0
    cases hw : s.workers s.collIdx with
    | idle => rw [hw] at h0; exact h0 rfl
    | busy t =>
      have hany : ((List.range N).any fun i => (s.workers i).isBusy) = true :=
        List.any_eq_true.mpr ⟨s.collIdx, List.mem_range.mpr hcN, by
          rw [hw]; rfl⟩
      rw [hany] at hs4
      cases hs4
    | done r =>
      rw [hch, hw] at hs5
      simp [WState.isDone] at hs5
  have hallidle : ∀ x, x < N → s.workers x = .idle := by
    intro x hx
    have hj := hidle ((N + x - s.collIdx) % N) (by omega)
      (Nat.mod_lt _ (by omega))
    rwa [residue_hit hcN hx] at hj
  have hdh : s.dispHold = none := by
    cases hd : s.dispHold with
    | none => rfl
    | some t =>
      rw [hd, hallidle s.dispIdx hdN] at hs3
      simp [WState.isIdle] at hs3
  have hreq : s.reqQ = [] := by
    cases hq : s.reqQ with
    | nil => rfl
    | cons t l =>
      rw [hdh, hq] at hs2
      simp at hs2
  have hts : s.toSubmit = [] := by
    cases ht : s.toSubmit with
    | nil => rfl
    | cons t l =>
      rw [ht, hreq] at hs1
      simp at hs1
      omega
  rw [hm0, hresp, hch, hdh, hreq, hts] at hflat
  simpa [window, optList] using hflat

/-- C2: for every pool size N in [1, 64] and every finite task list ts, every
completed run of the task_channel system (a maximal interleaving: reachable
from the initial state and with no thread able to take a further step)
delivers to the receiver exactly the task results in submission order,
regardless of the interleaving (and hence of how long each task takes). -/
theorem task_channel_fifo {τ ρ : Type} (run : τ → ρ) (N : Nat)
    (h1 : 1 ≤ N) (h2 : N ≤ 64) (ts : List τ) (s : PoolState τ ρ)
    (hr : Relation.ReflTransGen (Step N run) (initState ts) s)
    (hstuck : enabledB N s = false) :
    s.received = ts.map run :=
  stuck_drained h1 (inv_reachable h1 hr) hstuck

/-- Witness for C2: a complete 7-step run of a size-1 pool on the single
task 41 with run = (+1), ending in a stuck state whose received list is
the mapped task list. -/
theorem task_channel_fifo_witness :
    ∃ s : PoolState Nat Nat,
      Relation.ReflTransGen (Step 1 (fun x => x + 1)) (initState [41]) s ∧
        enabledB 1 s = false ∧ s.received = [41].map (fun x => x + 1) := by
  have h0 : Relation.ReflTransGen (Step 1 (fun x : Nat => x + 1))
      (initState [41]) (initState [41]) := .refl
  have h1 := h0.tail (Step.submit _ 41 [] rfl (by decide))
  have h2 := h1.tail (Step.dispatch _ 41 [] rfl rfl)
  have h3 := h2.tail (Step.handoff _ 41 rfl rfl)
  have h4 := h3.tail (Step.work _ 0 41 (by decide) rfl)
  have h5 := h4.tail (Step.collect _ 42 rfl rfl)
  have h6 := h5.tail (Step.deliver _ 42 rfl (by decide))
  have h7 := h6.tail (Step.receive _ 42 [] rfl)
  exact ⟨_, h7, by decide,
    task_channel_fifo (fun x => x + 1) 1 (by decide) (by decide) [41] _ h7
      (by decide)⟩

/-- C5 amended: in every reachable state of a task_channel(N) pool, at most
3N+2 tasks are in flight (N in the request buffer, one in the dispatcher's
hand, N inside workers, one in the collector's hand, N in the response
buffer); a submit blocks once the request buffer holds N undispatched
tasks. -/
theorem task_channel_inflight_bound {τ ρ : Type} (run : τ → ρ) (N : Nat)
    (h1 : 1 ≤ N) (ts : List τ) (s : PoolState τ ρ)
    (hr : Relation.ReflTransGen (Step N run) (initState ts) s) :
    inflight N s ≤ 3 * N + 2 := by
  obtain ⟨m, hm, hdN, hcN, hrq, hrs, hdi, hocc, hidle, hflat⟩ :=
    inv_reachable h1 hr
  unfold inflight
  have hw : ((List.range N).filter (fun i => !(s.workers i).isIdle)).length ≤ N := by
    calc ((List.range N).filter (fun i => !(s.workers i).isIdle)).length
        ≤ (List.range N).length := List.length_filter_le _ _
      _ = N := List.length_range N
  have hdh : (optList s.dispHold).length ≤ 1 := by
    cases s.dispHold <;> simp [optList]
  have hcl : (optList s.collHold).length ≤ 1 := by
    cases s.collHold <;> simp [optList]
  omega

/-- C5 counterexample: a reachable state of a task_channel(2) pool holding 8
in-flight tasks, exceeding the claimed bound 2N+3 = 7.  The receiver
consumes nothing while 8 tasks are submitted: both workers finish (2), the
collector holds a third result with the response buffer full (1 + 2), the
dispatcher holds a task it cannot hand to the occupied worker (1), and the
request buffer fills (2). -/
theorem task_channel_inflight_exceeds :
    ∃ s : PoolState Nat Nat,
      Relation.ReflTransGen (Step 2 (fun x => x))
        (initState [0, 1, 2, 3, 4, 5, 6, 7]) s ∧
        2 * 2 + 3 < inflight 2 s := by
  have g0 : Relation.ReflTransGen (Step 2 (fun x : Nat => x))
      (initState [0, 1, 2, 3, 4, 5, 6, 7]) (initState [0, 1, 2, 3, 4, 5, 6, 7]) :=
    .refl
  have g1 := g0.tail (Step.submit _ 0 [1, 2, 3, 4, 5, 6, 7] rfl (by decide))
  have g2 := g1.tail (Step.dispatch _ 0 [] rfl rfl)
  have g3 := g2.tail (Step.handoff _ 0 rfl rfl)
  have g4 := g3.tail (Step.work _ 0 0 (by decide) rfl)
  have g5 := g4.tail (Step.submit _ 1 [2, 3, 4, 5, 6, 7] rfl (by decide))
  have g6 := g5.tail (Step.dispatch _ 1 [] rfl rfl)
  have g7 := g6.tail (Step.handoff _ 1 rfl rfl)
  have g8 := g7.tail (Step.work _ 1 1 (by decide) rfl)
  have g9 := g8.tail (Step.collect _ 0 rfl rfl)
  have g10 := g9.tail (Step.deliver _ 0 rfl (by decide))
  have g11 := g10.tail (Step.collect _ 1 rfl rfl)
  have g12 := g11.tail (Step.deliver _ 1 rfl (by decide))
  have g13 := g12.tail (Step.submit _ 2 [3, 4, 5, 6, 7] rfl (by decide))
  have g14 := g13.tail (Step.dispatch _ 2 [] rfl rfl)
  have g15 := g14.tail (Step.handoff _ 2 rfl rfl)
  have g16 := g15.tail (Step.work _ 0 2 (by decide) rfl)
  have g17 := g16.tail (Step.collect _ 2 rfl rfl)
  have g18 := g17.tail (Step.submit _ 3 [4, 5, 6, 7] rfl (by decide))
  have g19 := g18.tail (Step.dispatch _ 3 [] rfl rfl)
  have g20 := g19.tail (Step.handoff _ 3 rfl rfl)
  have g21 := g20.tail (Step.work _ 1 3 (by decide) rfl)
  have g22 := g21.tail (Step.submit _ 4 [5, 6, 7] rfl (by decide))
  have g23 := g22.tail (Step.dispatch _ 4 [] rfl rfl)
  have g24 := g23.tail (Step.handoff _ 4 rfl rfl)
  have g25 := g24.tail (Step.work _ 0 4 (by decide) rfl)
  have g26 := g25.tail (Step.submit _ 5 [6, 7] rfl (by decide))
  have g27 := g26.tail (Step.dispatch _ 5 [] rfl rfl)
  have g28 := g27.tail (Step.submit _ 6 [7] rfl (by decide))
  have g29 := g28.tail (Step.submit _ 7 [] rfl (by decide))
  exact ⟨_, g29, by decide⟩

/-- Witness for the amended C5 at the initial state of a size-1 pool. -/
theorem task_channel_inflight_bound_witness :
    inflight 1 (initState ([] : List Nat) : PoolState Nat Nat) ≤ 3 * 1 + 2 :=
  task_channel_inflight_bound (fun x : Nat => x) 1 (by decide) [] _ .refl

theorem validateLoop_no_panic (paths : List (List String)) :
    ∀ seen, (∀ p ∈ paths, p ≠ []) → validateLoop paths seen ≠ .panicked := by
  induction paths with
  | nil => intro seen _ h; cases h
  | cons p rest ih =>
    intro seen hne h
    have hp : p ≠ [] := hne p (by simp)
    obtain ⟨a, ha⟩ : ∃ a, p.getLast? = some a := by
      cases hl : p.getLast? with
      | none => exact absurd (List.getLast?_eq_none_iff.mp hl) hp
      | some a => exact ⟨a, rfl⟩
    unfold validateLoop last_path_component at h
    rw [ha] at h
    dsimp only at h
    by_cases hmem : a ∈ seen
    · rw [if_pos hmem] at h; cases h
    · rw [if_neg hmem] at h
      exact ih (a :: seen) (fun q hq => hne q (by simp [hq])) h

theorem validateLoop_ok_nodup (paths : List (List String)) :
    ∀ seen, (∀ p ∈ paths, p ≠ []) → validateLoop paths seen = .ok →
      (paths.map (fun p => p.getLastD "")).Nodup ∧
        ∀ n ∈ paths.map (fun p => p.getLastD ""), n ∉ seen := by
  induction paths with
  | nil => intro seen _ _; simp
  | cons p rest ih =>
    intro seen hne hok
    have hp : p ≠ [] := hne p (by simp)
    obtain ⟨a, ha⟩ : ∃ a, p.getLast? = some a := by
      cases hl : p.getLast? with
      | none => exact absurd (List.getLast?_eq_none_iff.mp hl) hp
      | some a => exact ⟨a, rfl⟩
    have hga : p.getLastD "" = a := by
      rw [List.getLastD_eq_getLast?, ha]
      rfl
    unfold validateLoop last_path_component at hok
    rw [ha] at hok
    dsimp only at hok
    by_cases hmem : a ∈ seen
    · rw [if_pos hmem] at hok; cases hok
    · rw [if_neg hmem] at hok
      obtain ⟨hnd, hnin⟩ := ih (a :: seen) (fun q hq => hne q (by simp [hq])) hok
      refine ⟨?_, ?_⟩
      · rw [List.map_cons, hga, List.nodup_cons]
        refine ⟨fun hmem2 => ?_, hnd⟩
        exact hnin a hmem2 (by simp)
      · intro n hn
        rw [List.map_cons, hga] at hn
        rcases List.mem_cons.mp hn with rfl | hn2
        · exact hmem
        · exact fun hns => hnin n hn2 (by simp [hns])

/-- C9 counterexample: with an include path that has no components (the
empty path) alongside two paths sharing the final component a, backup
panics in last_path_component(...).unwrap() instead of returning the
DuplicateIncludeName error. -/
theorem backup_empty_include_panics :
    backup [[], ["a"], ["a"]] false (.completed, []) = (.panicked, []) := rfl

/-- C9 amended: for every list of include paths each having at least one
component, in which two paths share the same final component, backup
returns the DuplicateIncludeName error, and since both validations run
before the temporary tar file is created, no filesystem output is
produced (the action log is empty). -/
theorem backup_duplicate_rejected (paths : List (List String))
    (hne : ∀ p ∈ paths, p ≠ [])
    (hdup : ¬ (paths.map (fun p => p.getLastD "")).Nodup)
    (outExists : Bool) (rest : BackupOut × List String) :
    ∃ name, backup paths outExists rest = (.duplicateIncludeName name, []) := by
  unfold backup validate_no_duplicate_include_names
  cases hv : validateLoop paths [] with
  | ok => exact absurd ((validateLoop_ok_nodup paths [] hne hv).1) hdup
  | panicked => exact absurd hv (validateLoop_no_panic paths [] hne)
  | dup name => exact ⟨name, rfl⟩

/-- Witness for the amended C9 with include paths x/a and b/a sharing the
final component a. -/
theorem backup_duplicate_rejected_witness :
    ∃ name, backup [["x", "a"], ["b", "a"]] false (.completed, []) =
      (.duplicateIncludeName name, []) :=
  backup_duplicate_rejected [["x", "a"], ["b", "a"]] (by decide) (by decide)
    false (.completed, [])

end EncryptedBackup
